import Mathlib

/-!
Verification of the token acquisition / reconstruction / lifecycle subsystem
of the `nepseauth` repository (package `auth`, file `token.go`).

The Go code is shallowly embedded: token strings become `List Char` (the Go
code works on the bytes of ASCII tokens), Go `int` becomes `Int`, fallible
operations return `Except`/`Option`, and a Go runtime panic (an out-of-range
slice expression) is modelled as `Option.none` / a dedicated `panicked`
outcome.  Wall-clock instants (`time.Time`) are modelled as `Int` nanoseconds
since the Unix epoch, matching Go's nanosecond-resolution monotonic arithmetic
(`time.Unix (sec, 0)` becomes `sec * nsPerSec`).
-/

namespace NepseAuth

/-- Ascending sort of the index list.  `sliceSkipAt` in `token.go` sorts its
`positions` argument in place with an insertion sort (`for i := 1; ...` with
adjacent swaps while `ps[j-1] > ps[j]`); on `Int` (a linear order) that
in-place stable insertion sort computes exactly `List.insertionSort (· ≤ ·)`. -/
def sortAsc (l : List Int) : List Int := l.insertionSort (· ≤ ·)

/-- Go slice expression `b[lo:hi]` (valid when `lo ≤ hi ≤ b.length`). -/
def goSlice (b : List Char) (lo hi : Nat) : List Char := (b.take hi).drop lo

/-- The copying loop of `sliceSkipAt` (`token.go` lines 215–225): `prev` is the
Go `prev` cursor, the list argument is the still-unprocessed part of the sorted
positions `ps`.  A position `p < 0` or `p ≥ len(b)` is skipped (`continue`).
Otherwise Go appends `b[prev:p]`, which panics when `prev > p` (this happens
exactly when a usable position repeats); the panic is modelled as `none`.
After the loop Go appends `b[prev:]`, i.e. `b.drop prev`. -/
def skipWalk (b : List Char) : Nat → List Int → Option (List Char)
  | prev, [] => some (b.drop prev)
  | prev, p :: ps =>
    if p < 0 ∨ (b.length : Int) ≤ p then skipWalk b prev ps
    else if (prev : Int) ≤ p then
      (skipWalk b (p.toNat + 1) ps).map (fun rest => goSlice b prev p.toNat ++ rest)
    else none

/-- `sliceSkipAt` from `token.go` (lines 199–227): returns `s` unchanged for an
empty position list, otherwise sorts the positions ascending and runs the
copying loop.  `none` models a Go panic. -/
def sliceSkipAt (s : List Char) (positions : List Int) : Option (List Char) :=
  if positions.isEmpty then some s
  else skipWalk s 0 (sortAsc positions)

/-- The specification-side description of reconstruction: the concatenation, in
original order, of exactly those bytes of `s` whose position is not among the
listed indices (an out-of-range index matches no position, hence is silently
ignored). -/
def reconstructSpec (s : List Char) (idxs : List Int) : List Char :=
  (s.enum.filter (fun ic => ! idxs.contains ((ic.1 : Int)))).map Prod.snd

example : sliceSkipAt "abcdef".data [1, 3] = some "acef".data := by decide
example : sliceSkipAt "abc".data [5, -1, 1] = some "ac".data := by decide
example : sliceSkipAt "token123".data [] = some "token123".data := by decide
example : sliceSkipAt "abc".data [1, 1] = none := by decide
example : reconstructSpec "abcdef".data [1, 3] = "acef".data := by decide
example : reconstructSpec "abc".data [5, -1, 1] = "ac".data := by decide

/-- `q` is a usable ("in-bounds") position for a string of length `len`:
`0 ≤ q < len`.  Only such positions make the copy loop advance `prev`. -/
def inB (len : Nat) (q : Int) : Prop := 0 ≤ q ∧ q < (len : Nat)

theorem mem_enumFrom_bounds : ∀ {l : List Char} {n : Nat} {ic : Nat × Char},
    ic ∈ l.enumFrom n → n ≤ ic.1 ∧ ic.1 < n + l.length
  | [], n, ic, h => by simp at h
  | c :: cs, n, ic, h => by
    rw [List.enumFrom_cons] at h
    rcases List.mem_cons.mp h with h | h
    · subst h; simp
    · have h2 := mem_enumFrom_bounds h
      simp only [List.length_cons]
      omega

theorem enumFrom_append : ∀ (l₁ l₂ : List Char) (n : Nat),
    (l₁ ++ l₂).enumFrom n = l₁.enumFrom n ++ l₂.enumFrom (n + l₁.length)
  | [], l₂, n => by simp
  | c :: cs, l₂, n => by
    simp only [List.cons_append, List.enumFrom_cons, enumFrom_append cs l₂ (n + 1),
      List.length_cons]
    rw [show n + 1 + cs.length = n + (cs.length + 1) by omega]

/-- Splitting the not-yet-copied suffix of the string at a position `pn`. -/
theorem drop_split (b : List Char) {prev pn : Nat} (h1 : prev ≤ pn) (h2 : pn ≤ b.length) :
    b.drop prev = goSlice b prev pn ++ b.drop pn := by
  conv_lhs => rw [← List.take_append_drop pn b]
  rw [List.drop_append_of_le_length (by rw [List.length_take]; omega)]
  rfl

theorem length_goSlice (b : List Char) {prev pn : Nat} (h1 : prev ≤ pn) (h2 : pn ≤ b.length) :
    (goSlice b prev pn).length = pn - prev := by
  simp [goSlice, List.length_drop, List.length_take]
  omega

/-- Bool-level permutation invariance of `contains`. -/
theorem contains_eq_of_perm {l l' : List Int} (h : l.Perm l') (x : Int) :
    l.contains x = l'.contains x := by
  simp only [List.contains, List.elem_eq_mem]
  exact decide_eq_decide.mpr h.mem_iff

/-- Master lemma for the copy loop of `sliceSkipAt`: on a `≤`-sorted position
list whose usable positions are strictly increasing and all `≥ prev`, the loop
succeeds (no panic) and emits exactly the characters at positions `≥ prev`
whose position is not listed. -/
theorem skipWalk_eq (b : List Char) :
    ∀ ps : List Int, ps.Sorted (· ≤ ·) →
      ps.Pairwise (fun a c => inB b.length a → inB b.length c → a < c) →
      ∀ prev : Nat, prev ≤ b.length →
        (∀ q ∈ ps, inB b.length q → (prev : Int) ≤ q) →
        skipWalk b prev ps =
          some ((((b.drop prev).enumFrom prev).filter
            (fun ic => ! ps.contains ((ic.1 : Int)))).map Prod.snd)
  | [], _, _, prev, _, _ => by
    simp [skipWalk, List.enumFrom_map_snd]
  | p :: ps, hs, hpw, prev, hlen, hinv => by
    have hs' : ps.Sorted (· ≤ ·) := (List.sorted_cons.mp hs).2
    have hhead : ∀ q ∈ ps, p ≤ q := (List.sorted_cons.mp hs).1
    have hpw' := (List.pairwise_cons.mp hpw).2
    have hpwhead := (List.pairwise_cons.mp hpw).1
    by_cases hbad : p < 0 ∨ (b.length : Int) ≤ p
    · -- out-of-bounds position: skipped by the loop, matches no character index
      rw [skipWalk, if_pos hbad,
        skipWalk_eq b ps hs' hpw' prev hlen (fun q hq h2 => hinv q (List.mem_cons_of_mem _ hq) h2)]
      congr 1
      congr 1
      apply List.filter_congr
      intro ic hic
      have hb := mem_enumFrom_bounds hic
      have hlt : ic.1 < b.length := by
        have := List.length_drop prev b
        omega
      have hne : (ic.1 : Int) ≠ p := by
        rcases hbad with hbad | hbad <;> omega
      simp only [List.contains_cons]
      rw [show ((ic.1 : Int) == p) = false from beq_false_of_ne hne]
      simp
    · -- usable position p: Go copies b[prev:p] and sets prev := p+1
      push_neg at hbad
      obtain ⟨hp0, hplen⟩ := hbad
      have hprev : (prev : Int) ≤ p := hinv p (List.mem_cons_self _ _) ⟨hp0, hplen⟩
      set pn := p.toNat with hpn
      have hpnp : (pn : Int) = p := Int.toNat_of_nonneg hp0
      have hprevn : prev ≤ pn := by omega
      have hpnlen : pn < b.length := by omega
      rw [skipWalk, if_neg (by push_neg; exact ⟨hp0, hplen⟩), if_pos hprev]
      rw [skipWalk_eq b ps hs' hpw' (pn + 1) (by omega)
        (fun q hq h2 => by
          have := hpwhead q hq ⟨hp0, hplen⟩ h2
          omega)]
      simp only [Option.map_some']
      congr 1
      -- split the remaining string at position pn
      rw [drop_split b hprevn (le_of_lt hpnlen), enumFrom_append,
        length_goSlice b hprevn (le_of_lt hpnlen),
        show prev + (pn - prev) = pn by omega,
        List.drop_eq_getElem_cons hpnlen, List.enumFrom_cons, List.filter_append,
        List.filter_cons]
      -- the head (pn, b[pn]) is removed: pn is exactly the listed position p
      rw [show (!(p :: ps).contains ((pn : Int))) = false by
        simp [List.contains_cons, hpnp]]
      simp only [Bool.false_eq_true, if_false, List.map_append]
      -- the fragment b[prev:pn] survives the filter untouched
      have hfrag : ((goSlice b prev pn).enumFrom prev).filter
          (fun ic => ! (p :: ps).contains ((ic.1 : Int))) =
          (goSlice b prev pn).enumFrom prev := by
        rw [List.filter_eq_self]
        intro ic hic
        have hb := mem_enumFrom_bounds hic
        rw [length_goSlice b hprevn (le_of_lt hpnlen)] at hb
        have hlt : (ic.1 : Int) < p := by omega
        have hne : ((ic.1 : Int) == p) = false :=
          beq_false_of_ne (by omega)
        simp only [List.contains, List.elem_eq_mem, Bool.not_eq_true']
        exact decide_eq_false fun hmem => by
          rcases List.mem_cons.mp hmem with h | h
          · omega
          · have := hhead _ h; omega
      -- on the tail every index exceeds pn, so membership in p :: ps reduces to ps
      have htail : ((b.drop (pn + 1)).enumFrom (pn + 1)).filter
          (fun ic => ! (p :: ps).contains ((ic.1 : Int))) =
          ((b.drop (pn + 1)).enumFrom (pn + 1)).filter
          (fun ic => ! ps.contains ((ic.1 : Int))) := by
        apply List.filter_congr
        intro ic hic
        have hb := mem_enumFrom_bounds hic
        have hne : ((ic.1 : Int) == p) = false :=
          beq_false_of_ne (by omega)
        rw [List.contains_cons, hne, Bool.false_or]
      rw [hfrag, htail]
      rw [List.enumFrom_map_snd]

instance {len : Nat} {q : Int} : Decidable (inB len q) :=
  inferInstanceAs (Decidable (0 ≤ q ∧ q < (len : Int)))

/-- If the sublist of elements satisfying `P` has no duplicates, then any two
`P`-elements at different places of the list are distinct. -/
theorem pairwise_ne_of_nodup_filter (P : Int → Bool) :
    ∀ l : List Int, (l.filter P).Nodup →
      l.Pairwise (fun a b => P a = true → P b = true → a ≠ b)
  | [], _ => List.Pairwise.nil
  | a :: l, h => by
    rw [List.filter_cons] at h
    by_cases hPa : P a = true
    · rw [if_pos hPa] at h
      rcases List.nodup_cons.mp h with ⟨hnotin, hnd⟩
      refine List.Pairwise.cons ?_ (pairwise_ne_of_nodup_filter P l hnd)
      intro b hb _ hPb hab
      subst hab
      exact hnotin (List.mem_filter.mpr ⟨hb, hPb⟩)
    · rw [if_neg hPa] at h
      refine List.Pairwise.cons ?_ (pairwise_ne_of_nodup_filter P l h)
      intro b _ hPa2 _
      exact absurd hPa2 hPa

/-- **C1**: for pairwise-distinct indices, `sliceSkipAt` returns (without any
panic) the concatenation, in original order, of exactly those bytes of `s`
whose position is not among the listed indices; out-of-bounds indices are
silently ignored and the empty index list returns `s` unchanged. -/
theorem sliceSkipAt_eq_reconstructSpec (s : List Char) (idxs : List Int)
    (h : idxs.Nodup) : sliceSkipAt s idxs = some (reconstructSpec s idxs) := by
  by_cases he : idxs.isEmpty
  · have : idxs = [] := by cases idxs with
      | nil => rfl
      | cons a t => simp [List.isEmpty] at he
    subst this
    have hf : (s.enum.filter (fun ic => ! ([] : List Int).contains ((ic.1 : Int)))) =
        s.enum := by
      rw [List.filter_eq_self]; intro a _; rfl
    rw [sliceSkipAt, if_pos he, reconstructSpec, hf,
      show s.enum = s.enumFrom 0 from rfl, List.enumFrom_map_snd]
  · rw [sliceSkipAt, if_neg he]
    have hperm : (sortAsc idxs).Perm idxs := List.perm_insertionSort _ idxs
    have hsorted : (sortAsc idxs).Sorted (· ≤ ·) := List.sorted_insertionSort _ idxs
    have hnd : (sortAsc idxs).Nodup := hperm.nodup_iff.mpr h
    have hpw : (sortAsc idxs).Pairwise
        (fun a c => inB s.length a → inB s.length c → a < c) := by
      have h1 : (sortAsc idxs).Pairwise (· ≤ ·) := hsorted
      exact (h1.and hnd).imp fun hb _ _ => lt_of_le_of_ne hb.1 hb.2
    rw [skipWalk_eq s (sortAsc idxs) hsorted hpw 0 (Nat.zero_le _)
      (fun q _ h2 => by exact_mod_cast h2.1), List.drop_zero]
    rw [reconstructSpec, show s.enum = s.enumFrom 0 from rfl]
    congr 2
    apply List.filter_congr
    intro ic _
    simp only [contains_eq_of_perm hperm]

/-- Closed instance of C1 at the spec's concrete scenario
`reconstruct("abcdef", [1,3]) = "acef"`. -/
theorem sliceSkipAt_eq_reconstructSpec_witness :
    ([1, 3] : List Int).Nodup ∧
      sliceSkipAt "abcdef".data [1, 3] = some (reconstructSpec "abcdef".data [1, 3]) ∧
      reconstructSpec "abcdef".data [1, 3] = "acef".data :=
  ⟨by decide, sliceSkipAt_eq_reconstructSpec "abcdef".data [1, 3] (by decide), by decide⟩

/-- **C9**: `sliceSkipAt` gives the same output (including the panic outcome)
for every permutation of its index list: the indices are sorted ascending
internally before use. -/
theorem sliceSkipAt_order_independent (s : List Char) (l l' : List Int)
    (h : l.Perm l') : sliceSkipAt s l = sliceSkipAt s l' := by
  have hsort : sortAsc l = sortAsc l' :=
    List.eq_of_perm_of_sorted
      (((List.perm_insertionSort _ l).trans h).trans (List.perm_insertionSort _ l').symm)
      (List.sorted_insertionSort _ l) (List.sorted_insertionSort _ l')
  have hemp : l.isEmpty = l'.isEmpty := by
    cases l with
    | nil => rw [(List.Perm.eq_nil h.symm : l' = [])]
    | cons a t =>
      cases l' with
      | nil => exact absurd (List.Perm.eq_nil h) (by simp)
      | cons b u => rfl
  rw [sliceSkipAt, sliceSkipAt, hemp, hsort]

/-- Closed instance of C9: supplying the indices `[3,1]` and `[1,3]` yields the
same reconstruction of `"abcdef"`. -/
theorem sliceSkipAt_order_independent_witness :
    ([3, 1] : List Int).Perm [1, 3] ∧
      sliceSkipAt "abcdef".data [3, 1] = sliceSkipAt "abcdef".data [1, 3] :=
  ⟨List.Perm.swap 1 3 [],
    sliceSkipAt_order_independent "abcdef".data [3, 1] [1, 3] (List.Perm.swap 1 3 [])⟩

/-- **C10 counterexample**: with a duplicated in-bounds position the Go loop
evaluates the slice expression `b[prev:p]` with `prev = p + 1 > p`, an
out-of-range slice operation that panics — modelled as `none`.  Concretely,
`sliceSkipAt "abc" [1,1]` panics instead of returning a string. -/
theorem sliceSkipAt_panics_on_duplicate : sliceSkipAt "abc".data [1, 1] = none := by
  decide

/-- **C10 amended**: `sliceSkipAt` is total (returns a string, never panics)
for every list of positions in which no in-bounds position occurs more than
once; duplicated out-of-bounds positions remain harmless. -/
theorem sliceSkipAt_total_of_nodup_inbounds (s : List Char) (ps : List Int)
    (h : (ps.filter fun q => decide (inB s.length q)).Nodup) :
    (sliceSkipAt s ps).isSome := by
  by_cases he : ps.isEmpty
  · rw [sliceSkipAt, if_pos he]; rfl
  · rw [sliceSkipAt, if_neg he]
    have hperm : (sortAsc ps).Perm ps := List.perm_insertionSort _ ps
    have hsorted : (sortAsc ps).Sorted (· ≤ ·) := List.sorted_insertionSort _ ps
    have hnd : ((sortAsc ps).filter fun q => decide (inB s.length q)).Nodup :=
      ((hperm.filter _).nodup_iff).mpr h
    have hpw : (sortAsc ps).Pairwise
        (fun a c => inB s.length a → inB s.length c → a < c) := by
      have h1 : (sortAsc ps).Pairwise (· ≤ ·) := hsorted
      have h2 := pairwise_ne_of_nodup_filter _ _ hnd
      exact (h1.and h2).imp fun hb ha hc =>
        lt_of_le_of_ne hb.1 (hb.2 (decide_eq_true ha) (decide_eq_true hc))
    rw [skipWalk_eq s (sortAsc ps) hsorted hpw 0 (Nat.zero_le _)
      (fun q _ h2 => by exact_mod_cast h2.1)]
    rfl

/-- Closed instance of C10 (amended): `[5,-1,1]` has no duplicated in-bounds
position for `"abc"`, and the call returns a value. -/
theorem sliceSkipAt_total_of_nodup_inbounds_witness :
    (([5, -1, 1] : List Int).filter fun q => decide (inB "abc".data.length q)).Nodup ∧
      (sliceSkipAt "abc".data [5, -1, 1]).isSome :=
  ⟨by decide, sliceSkipAt_total_of_nodup_inbounds "abc".data [5, -1, 1] (by decide)⟩

/-! ### Index derivation (`indicesFromSalts`, `token.go` lines 307–381) -/

/-- The five salts of a token response (`[5]int` in Go). -/
structure Salts where
  s1 : Int
  s2 : Int
  s3 : Int
  s4 : Int
  s5 : Int
deriving DecidableEq

/-- The five exported WASM derivation functions (`cdx`, `rdx`, `bdx`, `ndx`,
`mdx`).  wazero passes each i32 argument in a `uint64` slot and returns one
`uint64` result slot; each exported function is modelled as an opaque-but-pure
map on the truncated argument slots that can fail with a call error `ε`
(a WASM trap). -/
structure tokenParser (ε : Type) where
  cdx : Nat → Nat → Nat → Nat → Nat → Except ε Nat
  rdx : Nat → Nat → Nat → Nat → Nat → Except ε Nat
  bdx : Nat → Nat → Nat → Nat → Nat → Except ε Nat
  ndx : Nat → Nat → Nat → Nat → Nat → Except ε Nat
  mdx : Nat → Nat → Nat → Nat → Nat → Except ε Nat

/-- Go `uint64(uint32(a))` for `a : int`. -/
def toUInt32 (a : Int) : Nat := (a % (2 ^ 32 : Int)).toNat

/-- Go `int(int32(r))` for a `uint64` result slot `r`. -/
def toInt32 (r : Nat) : Int :=
  if r % 2 ^ 32 < 2 ^ 31 then ((r % 2 ^ 32 : Nat) : Int)
  else ((r % 2 ^ 32 : Nat) : Int) - 2 ^ 32

/-- The `call5` helper of `indicesFromSalts`: truncate the five ints to
`uint32`, call the export, interpret the result slot as `int32`. -/
def call5 {ε} (f : Nat → Nat → Nat → Nat → Nat → Except ε Nat)
    (a b c d e : Int) : Except ε Int :=
  (f (toUInt32 a) (toUInt32 b) (toUInt32 c) (toUInt32 d) (toUInt32 e)).map toInt32

/-- The two derived index sets (`access = [n,l,o,p,q]`, `refresh = [a,b,c,d,e]`). -/
structure tokenIndices where
  access : List Int
  refresh : List Int
deriving DecidableEq

/-- `indicesFromSalts` (`token.go` lines 307–381): ten sequential `call5`
invocations with the exact argument permutations of the Go code, each followed
by Go's `if err != nil { return tokenIndices{}, err }`. -/
def indicesFromSalts {ε} (p : tokenParser ε) (s : Salts) : Except ε tokenIndices :=
  match call5 p.cdx s.s1 s.s2 s.s3 s.s4 s.s5 with
  | .error e => .error e
  | .ok n =>
  match call5 p.rdx s.s1 s.s2 s.s4 s.s3 s.s5 with
  | .error e => .error e
  | .ok l =>
  match call5 p.bdx s.s1 s.s2 s.s4 s.s3 s.s5 with
  | .error e => .error e
  | .ok o =>
  match call5 p.ndx s.s1 s.s2 s.s4 s.s3 s.s5 with
  | .error e => .error e
  | .ok pp =>
  match call5 p.mdx s.s1 s.s2 s.s4 s.s3 s.s5 with
  | .error e => .error e
  | .ok q =>
  match call5 p.cdx s.s2 s.s1 s.s3 s.s5 s.s4 with
  | .error e => .error e
  | .ok a =>
  match call5 p.rdx s.s2 s.s1 s.s3 s.s4 s.s5 with
  | .error e => .error e
  | .ok b =>
  match call5 p.bdx s.s2 s.s1 s.s4 s.s3 s.s5 with
  | .error e => .error e
  | .ok c =>
  match call5 p.ndx s.s2 s.s1 s.s4 s.s3 s.s5 with
  | .error e => .error e
  | .ok d =>
  match call5 p.mdx s.s2 s.s1 s.s4 s.s3 s.s5 with
  | .error e => .error e
  | .ok e2 =>
    .ok ⟨[n, l, o, pp, q], [a, b, c, d, e2]⟩

/-- **C2**: `indicesFromSalts` calls the five distinct exports with exactly the
argument permutations of the code: if all ten calls succeed the result is
`access = [cdx(s1,s2,s3,s4,s5), rdx(s1,s2,s4,s3,s5), bdx(s1,s2,s4,s3,s5),
ndx(s1,s2,s4,s3,s5), mdx(s1,s2,s4,s3,s5)]` and `refresh = [cdx(s2,s1,s3,s5,s4),
rdx(s2,s1,s3,s4,s5), bdx(s2,s1,s4,s3,s5), ndx(s2,s1,s4,s3,s5),
mdx(s2,s1,s4,s3,s5)]`; any returned error is the error of one of those ten
calls; and indices are produced only when all ten calls succeed. -/
theorem indicesFromSalts_spec {ε} (p : tokenParser ε) (s : Salts) :
    (∀ n l o pp q a b c d e2 : Int,
      call5 p.cdx s.s1 s.s2 s.s3 s.s4 s.s5 = .ok n →
      call5 p.rdx s.s1 s.s2 s.s4 s.s3 s.s5 = .ok l →
      call5 p.bdx s.s1 s.s2 s.s4 s.s3 s.s5 = .ok o →
      call5 p.ndx s.s1 s.s2 s.s4 s.s3 s.s5 = .ok pp →
      call5 p.mdx s.s1 s.s2 s.s4 s.s3 s.s5 = .ok q →
      call5 p.cdx s.s2 s.s1 s.s3 s.s5 s.s4 = .ok a →
      call5 p.rdx s.s2 s.s1 s.s3 s.s4 s.s5 = .ok b →
      call5 p.bdx s.s2 s.s1 s.s4 s.s3 s.s5 = .ok c →
      call5 p.ndx s.s2 s.s1 s.s4 s.s3 s.s5 = .ok d →
      call5 p.mdx s.s2 s.s1 s.s4 s.s3 s.s5 = .ok e2 →
      indicesFromSalts p s = .ok ⟨[n, l, o, pp, q], [a, b, c, d, e2]⟩) ∧
    (∀ err : ε, indicesFromSalts p s = .error err →
      call5 p.cdx s.s1 s.s2 s.s3 s.s4 s.s5 = .error err ∨
      call5 p.rdx s.s1 s.s2 s.s4 s.s3 s.s5 = .error err ∨
      call5 p.bdx s.s1 s.s2 s.s4 s.s3 s.s5 = .error err ∨
      call5 p.ndx s.s1 s.s2 s.s4 s.s3 s.s5 = .error err ∨
      call5 p.mdx s.s1 s.s2 s.s4 s.s3 s.s5 = .error err ∨
      call5 p.cdx s.s2 s.s1 s.s3 s.s5 s.s4 = .error err ∨
      call5 p.rdx s.s2 s.s1 s.s3 s.s4 s.s5 = .error err ∨
      call5 p.bdx s.s2 s.s1 s.s4 s.s3 s.s5 = .error err ∨
      call5 p.ndx s.s2 s.s1 s.s4 s.s3 s.s5 = .error err ∨
      call5 p.mdx s.s2 s.s1 s.s4 s.s3 s.s5 = .error err) ∧
    (∀ r : tokenIndices, indicesFromSalts p s = .ok r →
      (∃ v, call5 p.cdx s.s1 s.s2 s.s3 s.s4 s.s5 = .ok v) ∧
      (∃ v, call5 p.rdx s.s1 s.s2 s.s4 s.s3 s.s5 = .ok v) ∧
      (∃ v, call5 p.bdx s.s1 s.s2 s.s4 s.s3 s.s5 = .ok v) ∧
      (∃ v, call5 p.ndx s.s1 s.s2 s.s4 s.s3 s.s5 = .ok v) ∧
      (∃ v, call5 p.mdx s.s1 s.s2 s.s4 s.s3 s.s5 = .ok v) ∧
      (∃ v, call5 p.cdx s.s2 s.s1 s.s3 s.s5 s.s4 = .ok v) ∧
      (∃ v, call5 p.rdx s.s2 s.s1 s.s3 s.s4 s.s5 = .ok v) ∧
      (∃ v, call5 p.bdx s.s2 s.s1 s.s4 s.s3 s.s5 = .ok v) ∧
      (∃ v, call5 p.ndx s.s2 s.s1 s.s4 s.s3 s.s5 = .ok v) ∧
      (∃ v, call5 p.mdx s.s2 s.s1 s.s4 s.s3 s.s5 = .ok v)) := by
  refine ⟨?_, ?_, ?_⟩
  · intro n l o pp q a b c d e2 h1 h2 h3 h4 h5 h6 h7 h8 h9 h10
    simp [indicesFromSalts, h1, h2, h3, h4, h5, h6, h7, h8, h9, h10]
  · intro err herr
    cases h1 : call5 p.cdx s.s1 s.s2 s.s3 s.s4 s.s5 with
    | error e => simp [indicesFromSalts, h1] at herr; subst herr; exact Or.inl rfl
    | ok n =>
    cases h2 : call5 p.rdx s.s1 s.s2 s.s4 s.s3 s.s5 with
    | error e =>
      simp [indicesFromSalts, h1, h2] at herr; subst herr
      exact Or.inr (Or.inl rfl)
    | ok l =>
    cases h3 : call5 p.bdx s.s1 s.s2 s.s4 s.s3 s.s5 with
    | error e =>
      simp [indicesFromSalts, h1, h2, h3] at herr; subst herr
      exact Or.inr (Or.inr (Or.inl rfl))
    | ok o =>
    cases h4 : call5 p.ndx s.s1 s.s2 s.s4 s.s3 s.s5 with
    | error e =>
      simp [indicesFromSalts, h1, h2, h3, h4] at herr; subst herr
      exact Or.inr (Or.inr (Or.inr (Or.inl rfl)))
    | ok pp =>
    cases h5 : call5 p.mdx s.s1 s.s2 s.s4 s.s3 s.s5 with
    | error e =>
      simp [indicesFromSalts, h1, h2, h3, h4, h5] at herr; subst herr
      exact Or.inr (Or.inr (Or.inr (Or.inr (Or.inl rfl))))
    | ok q =>
    cases h6 : call5 p.cdx s.s2 s.s1 s.s3 s.s5 s.s4 with
    | error e =>
      simp [indicesFromSalts, h1, h2, h3, h4, h5, h6] at herr; subst herr
      exact Or.inr (Or.inr (Or.inr (Or.inr (Or.inr (Or.inl rfl)))))
    | ok a =>
    cases h7 : call5 p.rdx s.s2 s.s1 s.s3 s.s4 s.s5 with
    | error e =>
      simp [indicesFromSalts, h1, h2, h3, h4, h5, h6, h7] at herr; subst herr
      exact Or.inr (Or.inr (Or.inr (Or.inr (Or.inr (Or.inr (Or.inl rfl))))))
    | ok b =>
    cases h8 : call5 p.bdx s.s2 s.s1 s.s4 s.s3 s.s5 with
    | error e =>
      simp [indicesFromSalts, h1, h2, h3, h4, h5, h6, h7, h8] at herr; subst herr
      exact Or.inr (Or.inr (Or.inr (Or.inr (Or.inr (Or.inr (Or.inr (Or.inl rfl)))))))
    | ok c =>
    cases h9 : call5 p.ndx s.s2 s.s1 s.s4 s.s3 s.s5 with
    | error e =>
      simp [indicesFromSalts, h1, h2, h3, h4, h5, h6, h7, h8, h9] at herr; subst herr
      exact Or.inr (Or.inr (Or.inr (Or.inr (Or.inr (Or.inr (Or.inr (Or.inr (Or.inl rfl))))))))
    | ok d =>
    cases h10 : call5 p.mdx s.s2 s.s1 s.s4 s.s3 s.s5 with
    | error e =>
      simp [indicesFromSalts, h1, h2, h3, h4, h5, h6, h7, h8, h9, h10] at herr; subst herr
      exact Or.inr (Or.inr (Or.inr (Or.inr (Or.inr (Or.inr (Or.inr (Or.inr (Or.inr rfl))))))))
    | ok e2 =>
      simp [indicesFromSalts, h1, h2, h3, h4, h5, h6, h7, h8, h9, h10] at herr
  · intro r hok
    cases h1 : call5 p.cdx s.s1 s.s2 s.s3 s.s4 s.s5 with
    | error e => simp [indicesFromSalts, h1] at hok
    | ok n =>
    cases h2 : call5 p.rdx s.s1 s.s2 s.s4 s.s3 s.s5 with
    | error e => simp [indicesFromSalts, h1, h2] at hok
    | ok l =>
    cases h3 : call5 p.bdx s.s1 s.s2 s.s4 s.s3 s.s5 with
    | error e => simp [indicesFromSalts, h1, h2, h3] at hok
    | ok o =>
    cases h4 : call5 p.ndx s.s1 s.s2 s.s4 s.s3 s.s5 with
    | error e => simp [indicesFromSalts, h1, h2, h3, h4] at hok
    | ok pp =>
    cases h5 : call5 p.mdx s.s1 s.s2 s.s4 s.s3 s.s5 with
    | error e => simp [indicesFromSalts, h1, h2, h3, h4, h5] at hok
    | ok q =>
    cases h6 : call5 p.cdx s.s2 s.s1 s.s3 s.s5 s.s4 with
    | error e => simp [indicesFromSalts, h1, h2, h3, h4, h5, h6] at hok
    | ok a =>
    cases h7 : call5 p.rdx s.s2 s.s1 s.s3 s.s4 s.s5 with
    | error e => simp [indicesFromSalts, h1, h2, h3, h4, h5, h6, h7] at hok
    | ok b =>
    cases h8 : call5 p.bdx s.s2 s.s1 s.s4 s.s3 s.s5 with
    | error e => simp [indicesFromSalts, h1, h2, h3, h4, h5, h6, h7, h8] at hok
    | ok c =>
    cases h9 : call5 p.ndx s.s2 s.s1 s.s4 s.s3 s.s5 with
    | error e => simp [indicesFromSalts, h1, h2, h3, h4, h5, h6, h7, h8, h9] at hok
    | ok d =>
    cases h10 : call5 p.mdx s.s2 s.s1 s.s4 s.s3 s.s5 with
    | error e => simp [indicesFromSalts, h1, h2, h3, h4, h5, h6, h7, h8, h9, h10] at hok
    | ok e2 =>
      exact ⟨⟨n, rfl⟩, ⟨l, rfl⟩, ⟨o, rfl⟩, ⟨pp, rfl⟩, ⟨q, rfl⟩,
        ⟨a, rfl⟩, ⟨b, rfl⟩, ⟨c, rfl⟩, ⟨d, rfl⟩, ⟨e2, rfl⟩⟩

/-- A concrete stub parser whose exports encode their argument order, used to
exhibit the permutations on the salts `(1,2,3,4,5)`. -/
def testParser : tokenParser Unit where
  cdx a b c d e := .ok (a * 10000 + b * 1000 + c * 100 + d * 10 + e)
  rdx a b c d e := .ok (100000 + a * 10000 + b * 1000 + c * 100 + d * 10 + e)
  bdx a b c d e := .ok (200000 + a * 10000 + b * 1000 + c * 100 + d * 10 + e)
  ndx a b c d e := .ok (300000 + a * 10000 + b * 1000 + c * 100 + d * 10 + e)
  mdx a b c d e := .ok (400000 + a * 10000 + b * 1000 + c * 100 + d * 10 + e)

/-- Closed instance of C2: on the stub parser the derived indices spell out the
ten argument permutations. -/
theorem indicesFromSalts_spec_witness :
    indicesFromSalts testParser ⟨1, 2, 3, 4, 5⟩ =
      .ok ⟨[12345, 112435, 212435, 312435, 412435],
           [21354, 121345, 221435, 321435, 421435]⟩ :=
  (indicesFromSalts_spec testParser ⟨1, 2, 3, 4, 5⟩).1
    12345 112435 212435 312435 412435 21354 121345 221435 321435 421435
    rfl rfl rfl rfl rfl rfl rfl rfl rfl rfl


/-! ### The credential Manager (`token.go` lines 49–194) -/

/-- Nanoseconds per second: Go `time.Duration` counts nanoseconds, and
`time.Unix(sec, 0)` denotes the instant `sec * nsPerSec`. -/
def nsPerSec : Int := 1000000000

/-- Manager-level errors (`errors.New` / `fmt.Errorf` in `token.go`); the
wrapped collaborator or WASM error has type `ε`. -/
inductive MgrErr (ε : Type)
  | getToken (e : ε)
  | wasmParse (e : ε)
  | emptyAccessToken
  | emptyRefreshToken
deriving DecidableEq

/-- `TokenResponse`: the JSON of `/api/authenticate/prove`. -/
structure TokenResponse where
  salt1 : Int
  salt2 : Int
  salt3 : Int
  salt4 : Int
  salt5 : Int
  accessToken : List Char
  refreshToken : List Char
  serverTime : Int
deriving DecidableEq

/-- The Manager's credential state plus its fixed validity window.
`tokenTS = none` models Go's zero `time.Time`; `some t` the instant `t`
(nanoseconds since the epoch). -/
structure Manager where
  accessToken : List Char
  refreshToken : List Char
  tokenTS : Option Int
  salts : Salts
  maxUpdatePeriod : Int
deriving DecidableEq

/-- The collaborators of one call: the HTTP layer's `GetTokens` behaviour and
the WASM parser.  The current instant `now` is passed to each operation. -/
structure Env (ε : Type) where
  getTokens : Except ε TokenResponse
  parser : tokenParser ε

/-- `NewManager` (`token.go` lines 67–77): zero-valued credential fields and a
45-second validity window. -/
def newManager : Manager :=
  { accessToken := []
    refreshToken := []
    tokenTS := none
    salts := ⟨0, 0, 0, 0, 0⟩
    maxUpdatePeriod := 45 * nsPerSec }

/-- `isValid` (`token.go` lines 133–140): false on an empty access token or a
zero timestamp, otherwise `time.Since(tokenTS) < maxUpdatePeriod`. -/
def isValid (now : Int) (m : Manager) : Bool :=
  if m.accessToken = [] ∨ m.tokenTS = none then false
  else
    match m.tokenTS with
    | none => false
    | some t => decide (now - t < m.maxUpdatePeriod)

/-- Result of `parseResponse`. -/
inductive ParseOut (ε : Type)
  | ok (access refresh : List Char) (salts : Salts) (sec : Int)
  | err (e : MgrErr ε)
  | panicked
deriving DecidableEq

/-- `parseResponse` (`token.go` lines 179–194): derive the indices via the
WASM parser (a failure is wrapped as "wasm parse"), reconstruct both tokens
with `sliceSkipAt` (a panic propagates), and convert `serverTime` from
milliseconds to seconds with Go's truncating integer division. -/
def parseResponse {ε} (p : tokenParser ε) (tr : TokenResponse) : ParseOut ε :=
  match indicesFromSalts p ⟨tr.salt1, tr.salt2, tr.salt3, tr.salt4, tr.salt5⟩ with
  | .error e => .err (.wasmParse e)
  | .ok idx =>
    match sliceSkipAt tr.accessToken idx.access with
    | none => .panicked
    | some access =>
      match sliceSkipAt tr.refreshToken idx.refresh with
      | none => .panicked
      | some refresh =>
        .ok access refresh ⟨tr.salt1, tr.salt2, tr.salt3, tr.salt4, tr.salt5⟩
          (tr.serverTime.tdiv 1000)

/-- A Go return value together with the Manager state afterwards;
`panicked` models a runtime panic. -/
inductive ORes (ε α : Type)
  | ok (a : α) (st : Manager)
  | err (e : MgrErr ε) (st : Manager)
  | panicked
deriving DecidableEq

/-- Instrumented outcome of `update`: the result, the number of `GetTokens`
fetches issued (0 or 1), and whether the credential state was replaced. -/
structure UpdOut (ε : Type) where
  res : ORes ε Unit
  fetches : Nat
  stored : Bool
deriving DecidableEq

/-- `update` (`token.go` lines 144–177) under the sequential (single-caller)
semantics of the `singleflight.Do` closure: re-check freshness, fetch, parse,
then replace all credential fields together under the write lock
(`tokenTS := time.Unix(sec, 0)` when `sec > 0`, else `time.Now()`). -/
def update {ε} (env : Env ε) (now : Int) (m : Manager) : UpdOut ε :=
  if isValid now m then ⟨.ok () m, 0, false⟩
  else
    match env.getTokens with
    | .error e => ⟨.err (.getToken e) m, 1, false⟩
    | .ok tr =>
      match parseResponse env.parser tr with
      | .err e => ⟨.err e m, 1, false⟩
      | .panicked => ⟨.panicked, 1, false⟩
      | .ok access refresh salts sec =>
        ⟨.ok () { m with
            accessToken := access
            refreshToken := refresh
            salts := salts
            tokenTS := some (if sec > 0 then sec * nsPerSec else now) },
         1, true⟩

/-- `ForceUpdate` (`token.go` lines 126–128): just `m.update(ctx)`. -/
def forceUpdate {ε} (env : Env ε) (now : Int) (m : Manager) : UpdOut ε :=
  update env now m

/-- `AccessToken` (`token.go` lines 88–104), instrumented with the fetch count
and the stored flag of the update it may perform. -/
def accessTokenFn {ε} (env : Env ε) (now : Int) (m : Manager) :
    ORes ε (List Char) × Nat × Bool :=
  if isValid now m then (.ok m.accessToken m, 0, false)
  else
    match update env now m with
    | ⟨.ok _ m', n, s⟩ =>
      if m'.accessToken = [] then (.err .emptyAccessToken m', n, s)
      else (.ok m'.accessToken m', n, s)
    | ⟨.err e m', n, s⟩ => (.err e m', n, s)
    | ⟨.panicked, n, s⟩ => (.panicked, n, s)

/-- `RefreshToken` (`token.go` lines 107–123): symmetric to `AccessToken`,
but note that the freshness test `isValid` inspects only the access token. -/
def refreshTokenFn {ε} (env : Env ε) (now : Int) (m : Manager) :
    ORes ε (List Char) × Nat × Bool :=
  if isValid now m then (.ok m.refreshToken m, 0, false)
  else
    match update env now m with
    | ⟨.ok _ m', n, s⟩ =>
      if m'.refreshToken = [] then (.err .emptyRefreshToken m', n, s)
      else (.ok m'.refreshToken m', n, s)
    | ⟨.err e m', n, s⟩ => (.err e m', n, s)
    | ⟨.panicked, n, s⟩ => (.panicked, n, s)

/-- One public operation on the Manager. -/
inductive Op (ε : Type)
  | access (env : Env ε) (now : Int)
  | refresh (env : Env ε) (now : Int)
  | force (env : Env ε) (now : Int)

/-- Apply one operation: the state afterwards (`none` = panic) and whether the
operation's update cycle completed successfully and stored fetched
credentials. -/
def runOp {ε} : Op ε → Manager → Option (Manager × Bool)
  | .access env now, m =>
    match accessTokenFn env now m with
    | (.ok _ m', _, s) => some (m', s)
    | (.err _ m', _, s) => some (m', s)
    | (.panicked, _, _) => none
  | .refresh env now, m =>
    match refreshTokenFn env now m with
    | (.ok _ m', _, s) => some (m', s)
    | (.err _ m', _, s) => some (m', s)
    | (.panicked, _, _) => none
  | .force env now, m =>
    match forceUpdate env now m with
    | ⟨.ok _ m', _, s⟩ => some (m', s)
    | ⟨.err _ m', _, s⟩ => some (m', s)
    | ⟨.panicked, _, _⟩ => none

/-- Run a sequence of operations from a state, accumulating whether any
update cycle completed successfully (stored credentials). -/
def runTrace {ε} : List (Op ε) → Manager → Bool → Option (Manager × Bool)
  | [], m, f => some (m, f)
  | op :: ops, m, f =>
    match runOp op m with
    | none => none
    | some (m', s) => runTrace ops m' (f || s)

/-- Concrete stub parser: every export returns the index 1000 (out of bounds
for short test tokens, hence harmless to reconstruction). -/
def stubParser : tokenParser Unit where
  cdx _ _ _ _ _ := .ok 1000
  rdx _ _ _ _ _ := .ok 1000
  bdx _ _ _ _ _ := .ok 1000
  ndx _ _ _ _ _ := .ok 1000
  mdx _ _ _ _ _ := .ok 1000

/-- A fixed token response: salts 1..5, raw tokens `"TOKEN"`/`"REF"`, server
time 1000 ms. -/
def trE : TokenResponse := ⟨1, 2, 3, 4, 5, "TOKEN".data, "REF".data, 1000⟩

def envE : Env Unit := ⟨.ok trE, stubParser⟩

/-- The Manager state after a successful update against `envE`
(server seconds = 1, so `obtainedAt = time.Unix(1, 0)`). -/
def m1E : Manager :=
  { accessToken := "TOKEN".data
    refreshToken := "REF".data
    tokenTS := some nsPerSec
    salts := ⟨1, 2, 3, 4, 5⟩
    maxUpdatePeriod := 45 * nsPerSec }

example : update envE 0 newManager = ⟨.ok () m1E, 1, true⟩ := by decide
example : update envE (nsPerSec + 1) m1E = ⟨.ok () m1E, 0, false⟩ := by decide

/-- Characterization of `isValid`. -/
theorem isValid_iff (now : Int) (m : Manager) :
    isValid now m = true ↔
      m.accessToken ≠ [] ∧ ∃ t, m.tokenTS = some t ∧ now - t < m.maxUpdatePeriod := by
  rw [isValid]
  by_cases h : m.accessToken = [] ∨ m.tokenTS = none
  · rw [if_pos h]
    simp only [Bool.false_eq_true, false_iff]
    rintro ⟨hne, t, hts, _⟩
    rcases h with h | h
    · exact hne h
    · rw [h] at hts; cases hts
  · rw [if_neg h]
    push_neg at h
    obtain ⟨hne, hts⟩ := h
    rcases htt : m.tokenTS with _ | t
    · exact absurd htt hts
    · simp only [htt, decide_eq_true_eq]
      constructor
      · intro hlt; exact ⟨hne, t, rfl, hlt⟩
      · rintro ⟨_, t2, hts2, hlt⟩
        cases hts2
        exact hlt

/-- A stale update performs exactly one `GetTokens` fetch. -/
theorem update_fetches_of_stale {ε} (env : Env ε) (now : Int) (m : Manager)
    (h : isValid now m = false) : (update env now m).fetches = 1 := by
  rw [update, if_neg (by simp [h])]
  cases h2 : env.getTokens with
  | error e => simp
  | ok tr => cases h3 : parseResponse env.parser tr <;> simp [h3]

/-- A fresh update is a no-op: no fetch, no store, state unchanged. -/
theorem update_of_fresh {ε} (env : Env ε) (now : Int) (m : Manager)
    (h : isValid now m = true) : update env now m = ⟨.ok () m, 0, false⟩ := by
  rw [update, if_pos h]

/-- An update that succeeded without storing left the state unchanged. -/
theorem update_ok_not_stored {ε} {env : Env ε} {now : Int} {m mu : Manager}
    {a : Unit} {n : Nat} (h : update env now m = ⟨.ok a mu, n, false⟩) : mu = m := by
  unfold update at h
  split at h
  · simp_all [UpdOut.mk.injEq]
  · split at h
    · simp_all
    · split at h <;> simp_all

/-- An update that returned an error left the state unchanged. -/
theorem update_err_state {ε} {env : Env ε} {now : Int} {m mu : Manager}
    {e : MgrErr ε} {n : Nat} {s : Bool}
    (h : update env now m = ⟨.err e mu, n, s⟩) : mu = m := by
  unfold update at h
  split at h
  · simp_all
  · split at h
    · simp_all
    · split at h <;> simp_all

/-- A storing update replaced the four credential fields together and
preserved everything else (wholesale replacement). -/
theorem update_stored_shape {ε} (env : Env ε) (now : Int) (m : Manager)
    (h : (update env now m).stored = true) :
    ∃ access refresh salts ts,
      update env now m = ⟨.ok ()
        { accessToken := access
          refreshToken := refresh
          tokenTS := some ts
          salts := salts
          maxUpdatePeriod := m.maxUpdatePeriod }, 1, true⟩ := by
  by_cases hv : isValid now m
  · rw [update_of_fresh env now m hv] at h
    simp at h
  · rw [update, if_neg hv] at h ⊢
    cases h2 : env.getTokens with
    | error e => simp [h2] at h
    | ok tr =>
      cases h3 : parseResponse env.parser tr with
      | err e => simp [h2, h3] at h
      | panicked => simp [h2, h3] at h
      | ok access refresh salts sec =>
        exact ⟨access, refresh, salts, if sec > 0 then sec * nsPerSec else now,
          by simp [h3]⟩

/-- An update that returned `ok` preserves the validity window. -/
theorem update_ok_window {ε} {env : Env ε} {now : Int} {m m2 : Manager}
    {a : Unit} {n : Nat} {s : Bool}
    (h : update env now m = ⟨.ok a m2, n, s⟩) :
    m2.maxUpdatePeriod = m.maxUpdatePeriod := by
  unfold update at h
  split at h
  · simp_all
  · split at h
    · simp_all
    · split at h
      · simp_all
      · simp_all
      · simp at h
        obtain ⟨hm, _, _⟩ := h
        subst hm
        rfl

/-- A fresh `AccessToken` call returns the cached token, no fetch, no store. -/
theorem accessTokenFn_of_fresh {ε} (env : Env ε) (now : Int) (m : Manager)
    (h : isValid now m = true) :
    accessTokenFn env now m = (.ok m.accessToken m, 0, false) := by
  rw [accessTokenFn, if_pos h]

/-- A stale `AccessToken` call issues exactly one fetch. -/
theorem accessTokenFn_fetches_of_stale {ε} (env : Env ε) (now : Int) (m : Manager)
    (h : isValid now m = false) : (accessTokenFn env now m).2.1 = 1 := by
  rw [accessTokenFn, if_neg (by simp [h])]
  have hf := update_fetches_of_stale env now m h
  rcases hu : update env now m with ⟨res, n, s⟩
  rw [hu] at hf
  simp only [] at hf
  cases res with
  | ok a m2 => by_cases he : m2.accessToken = [] <;> simp [he, hf]
  | err e m2 => simp [hf]
  | panicked => simp [hf]

/-- A successful `AccessToken` result carries the (necessarily non-empty)
cached access token of the resulting state, and the window is preserved. -/
theorem accessTokenFn_ok_shape {ε} {env : Env ε} {now : Int} {m m2 : Manager}
    {t : List Char} {n : Nat} {s : Bool}
    (h : accessTokenFn env now m = (.ok t m2, n, s)) :
    t = m2.accessToken ∧ m2.accessToken ≠ [] ∧
      m2.maxUpdatePeriod = m.maxUpdatePeriod := by
  rw [accessTokenFn] at h
  by_cases hv : isValid now m
  · rw [if_pos hv] at h
    simp only [Prod.mk.injEq, ORes.ok.injEq] at h
    obtain ⟨⟨ht, hm⟩, _, _⟩ := h
    subst hm
    exact ⟨ht.symm, ((isValid_iff now m).mp hv).1, rfl⟩
  · rw [if_neg hv] at h
    rcases hu : update env now m with ⟨res, n0, s0⟩
    rw [hu] at h
    cases res with
    | ok a m3 =>
      by_cases he : m3.accessToken = []
      · simp [he] at h
      · simp only [he, if_false, Prod.mk.injEq, ORes.ok.injEq] at h
        obtain ⟨⟨ht, hm⟩, _, _⟩ := h
        subst hm
        exact ⟨ht.symm, he, update_ok_window hu⟩
    | err e m3 => simp at h
    | panicked => simp at h

/-- A non-storing successful `AccessToken` call left the state unchanged. -/
theorem accessTokenFn_ok_not_stored {ε} {env : Env ε} {now : Int} {m m2 : Manager}
    {t : List Char} {n : Nat}
    (h : accessTokenFn env now m = (.ok t m2, n, false)) : m2 = m := by
  rw [accessTokenFn] at h
  by_cases hv : isValid now m
  · rw [if_pos hv] at h
    simp only [Prod.mk.injEq, ORes.ok.injEq] at h
    exact h.1.2.symm
  · rw [if_neg hv] at h
    rcases hu : update env now m with ⟨res, n0, s0⟩
    rw [hu] at h
    cases res with
    | ok a m3 =>
      by_cases he : m3.accessToken = []
      · simp [he] at h
      · simp only [he, if_false, Prod.mk.injEq, ORes.ok.injEq] at h
        obtain ⟨⟨_, hm⟩, _, hs⟩ := h
        subst hm; subst hs
        exact update_ok_not_stored hu
    | err e m3 => simp at h
    | panicked => simp at h

/-- A non-storing erroring `AccessToken` call left the state unchanged. -/
theorem accessTokenFn_err_not_stored {ε} {env : Env ε} {now : Int} {m m2 : Manager}
    {e : MgrErr ε} {n : Nat}
    (h : accessTokenFn env now m = (.err e m2, n, false)) : m2 = m := by
  rw [accessTokenFn] at h
  by_cases hv : isValid now m
  · rw [if_pos hv] at h
    simp at h
  · rw [if_neg hv] at h
    rcases hu : update env now m with ⟨res, n0, s0⟩
    rw [hu] at h
    cases res with
    | ok a m3 =>
      by_cases he : m3.accessToken = []
      · simp only [he, if_true, Prod.mk.injEq, ORes.err.injEq] at h
        obtain ⟨⟨_, hm⟩, _, hs⟩ := h
        subst hm; subst hs
        exact update_ok_not_stored hu
      · simp [he] at h
    | err e2 m3 =>
      simp only [Prod.mk.injEq, ORes.err.injEq] at h
      obtain ⟨⟨_, hm⟩, _, _⟩ := h
      subst hm
      exact update_err_state hu
    | panicked => simp at h

/-- A fresh `RefreshToken` call returns the cached refresh token, no fetch. -/
theorem refreshTokenFn_of_fresh {ε} (env : Env ε) (now : Int) (m : Manager)
    (h : isValid now m = true) :
    refreshTokenFn env now m = (.ok m.refreshToken m, 0, false) := by
  rw [refreshTokenFn, if_pos h]

/-- A non-storing successful `RefreshToken` call left the state unchanged. -/
theorem refreshTokenFn_ok_not_stored {ε} {env : Env ε} {now : Int} {m m2 : Manager}
    {t : List Char} {n : Nat}
    (h : refreshTokenFn env now m = (.ok t m2, n, false)) : m2 = m := by
  rw [refreshTokenFn] at h
  by_cases hv : isValid now m
  · rw [if_pos hv] at h
    simp only [Prod.mk.injEq, ORes.ok.injEq] at h
    exact h.1.2.symm
  · rw [if_neg hv] at h
    rcases hu : update env now m with ⟨res, n0, s0⟩
    rw [hu] at h
    cases res with
    | ok a m3 =>
      by_cases he : m3.refreshToken = []
      · simp [he] at h
      · simp only [he, if_false, Prod.mk.injEq, ORes.ok.injEq] at h
        obtain ⟨⟨_, hm⟩, _, hs⟩ := h
        subst hm; subst hs
        exact update_ok_not_stored hu
    | err e m3 => simp at h
    | panicked => simp at h

/-- A non-storing erroring `RefreshToken` call left the state unchanged. -/
theorem refreshTokenFn_err_not_stored {ε} {env : Env ε} {now : Int} {m m2 : Manager}
    {e : MgrErr ε} {n : Nat}
    (h : refreshTokenFn env now m = (.err e m2, n, false)) : m2 = m := by
  rw [refreshTokenFn] at h
  by_cases hv : isValid now m
  · rw [if_pos hv] at h
    simp at h
  · rw [if_neg hv] at h
    rcases hu : update env now m with ⟨res, n0, s0⟩
    rw [hu] at h
    cases res with
    | ok a m3 =>
      by_cases he : m3.refreshToken = []
      · simp only [he, if_true, Prod.mk.injEq, ORes.err.injEq] at h
        obtain ⟨⟨_, hm⟩, _, hs⟩ := h
        subst hm; subst hs
        exact update_ok_not_stored hu
      · simp [he] at h
    | err e2 m3 =>
      simp only [Prod.mk.injEq, ORes.err.injEq] at h
      obtain ⟨⟨_, hm⟩, _, _⟩ := h
      subst hm
      exact update_err_state hu
    | panicked => simp at h

/-- A non-storing operation leaves the Manager state unchanged. -/
theorem runOp_no_store {ε} (op : Op ε) (m m2 : Manager)
    (h : runOp op m = some (m2, false)) : m2 = m := by
  cases op with
  | access env now =>
    simp only [runOp] at h
    rcases ha : accessTokenFn env now m with ⟨res, n, s⟩
    rw [ha] at h
    cases res with
    | ok t m3 =>
      simp only [Option.some.injEq, Prod.mk.injEq] at h
      obtain ⟨hm, hs⟩ := h
      subst hm; subst hs
      exact accessTokenFn_ok_not_stored ha
    | err e m3 =>
      simp only [Option.some.injEq, Prod.mk.injEq] at h
      obtain ⟨hm, hs⟩ := h
      subst hm; subst hs
      exact accessTokenFn_err_not_stored ha
    | panicked => simp at h
  | refresh env now =>
    simp only [runOp] at h
    rcases ha : refreshTokenFn env now m with ⟨res, n, s⟩
    rw [ha] at h
    cases res with
    | ok t m3 =>
      simp only [Option.some.injEq, Prod.mk.injEq] at h
      obtain ⟨hm, hs⟩ := h
      subst hm; subst hs
      exact refreshTokenFn_ok_not_stored ha
    | err e m3 =>
      simp only [Option.some.injEq, Prod.mk.injEq] at h
      obtain ⟨hm, hs⟩ := h
      subst hm; subst hs
      exact refreshTokenFn_err_not_stored ha
    | panicked => simp at h
  | force env now =>
    simp only [runOp, forceUpdate] at h
    rcases hu : update env now m with ⟨res, n, s⟩
    rw [hu] at h
    cases res with
    | ok a m3 =>
      simp only [Option.some.injEq, Prod.mk.injEq] at h
      obtain ⟨hm, hs⟩ := h
      subst hm; subst hs
      exact update_ok_not_stored hu
    | err e m3 =>
      simp only [Option.some.injEq, Prod.mk.injEq] at h
      obtain ⟨hm, hs⟩ := h
      subst hm; subst hs
      exact update_err_state hu
    | panicked => simp at h

/-- Once the stored flag is true it stays true along a trace. -/
theorem runTrace_flag_true {ε} : ∀ (ops : List (Op ε)) (m m2 : Manager) (f2 : Bool),
    runTrace ops m true = some (m2, f2) → f2 = true
  | [], m, m2, f2, h => by
    simp only [runTrace, Option.some.injEq, Prod.mk.injEq] at h
    exact h.2.symm
  | op :: ops, m, m2, f2, h => by
    simp only [runTrace] at h
    cases hro : runOp op m with
    | none => rw [hro] at h; simp at h
    | some ms =>
      rcases ms with ⟨m1, s⟩
      rw [hro] at h
      exact runTrace_flag_true ops m1 m2 f2 (by simpa using h)

/-- If no operation of a trace stored credentials, the state is unchanged. -/
theorem runTrace_no_store {ε} : ∀ (ops : List (Op ε)) (m m2 : Manager),
    runTrace ops m false = some (m2, false) → m2 = m
  | [], m, m2, h => by
    simp only [runTrace, Option.some.injEq, Prod.mk.injEq] at h
    exact h.1.symm
  | op :: ops, m, m2, h => by
    simp only [runTrace] at h
    cases hro : runOp op m with
    | none => rw [hro] at h; simp at h
    | some ms =>
      rcases ms with ⟨m1, s⟩
      rw [hro] at h
      cases s with
      | true =>
        have := runTrace_flag_true ops m1 m2 false (by simpa using h)
        simp at this
      | false =>
        have h1 := runTrace_no_store ops m1 m2 (by simpa using h)
        rw [h1]
        exact runOp_no_store op m m1 hro

/-- **C3 evidence**: against the fixed collaborator `envE`, a first
`ForceUpdate` at time 0 stores fresh credentials (state `m1E`, one fetch);
an immediately following `ForceUpdate` (1 ns later, well inside the 45-second
window) issues **zero** `GetTokens` fetches: the `isValid` re-check inside the
singleflight closure short-circuits, so `ForceUpdate` does not force a fetch
on a fresh Manager. -/
theorem forceUpdate_skips_fetch_when_fresh :
    forceUpdate envE 0 newManager = ⟨.ok () m1E, 1, true⟩ ∧
    forceUpdate envE (nsPerSec + 1) m1E = ⟨.ok () m1E, 0, false⟩ :=
  ⟨by decide, by decide⟩

/-- **C5**: starting from a stale state, `AccessToken` fetches exactly once;
while the cached state is fresh (non-empty access token, non-zero timestamp
`t1`, and `now - t1` below the fixed 45-second window) a second call returns
the cached token with no fetch and no state change; once the window has
elapsed, a further call fetches again. -/
theorem accessToken_window {ε} (env : Env ε) (m0 m1 : Manager) (now0 now1 : Int)
    (token : List Char) (n1 : Nat) (s1 : Bool) (t1 : Int)
    (hw : m0.maxUpdatePeriod = 45 * nsPerSec)
    (h0 : isValid now0 m0 = false)
    (h1 : accessTokenFn env now0 m0 = (.ok token m1, n1, s1))
    (hne : m1.accessToken ≠ [])
    (hts : m1.tokenTS = some t1)
    (hfresh : now1 - t1 < 45 * nsPerSec) :
    n1 = 1 ∧
    accessTokenFn env now1 m1 = (.ok m1.accessToken m1, 0, false) ∧
    (∀ now2 : Int, 45 * nsPerSec ≤ now2 - t1 →
      (accessTokenFn env now2 m1).2.1 = 1) := by
  have hwin : m1.maxUpdatePeriod = 45 * nsPerSec := by
    rw [(accessTokenFn_ok_shape h1).2.2, hw]
  refine ⟨?_, ?_, ?_⟩
  · have hn := accessTokenFn_fetches_of_stale env now0 m0 h0
    rw [h1] at hn
    simpa using hn
  · have hv : isValid now1 m1 = true :=
      (isValid_iff now1 m1).mpr ⟨hne, t1, hts, by rw [hwin]; exact hfresh⟩
    exact accessTokenFn_of_fresh env now1 m1 hv
  · intro now2 h2
    have hv : isValid now2 m1 = false := by
      apply Bool.eq_false_iff.mpr
      intro hvt
      obtain ⟨_, t2, hts2, hlt⟩ := (isValid_iff now2 m1).mp hvt
      rw [hts] at hts2
      cases hts2
      rw [hwin] at hlt
      omega
    exact accessTokenFn_fetches_of_stale env now2 m1 hv

/-- Closed instance of C5 against `envE`: the second call at `1 ns` past the
obtained timestamp returns the cache with zero fetches, and a call after the
window (46 s past) fetches again. -/
theorem accessToken_window_witness :
    accessTokenFn envE (nsPerSec + 1) m1E = (.ok m1E.accessToken m1E, 0, false) ∧
    (accessTokenFn envE (47 * nsPerSec) m1E).2.1 = 1 :=
  ⟨(accessToken_window envE newManager m1E 0 (nsPerSec + 1) "TOKEN".data 1 true
      nsPerSec rfl rfl (by decide) (by decide) rfl (by decide)).2.1,
   (accessToken_window envE newManager m1E 0 (nsPerSec + 1) "TOKEN".data 1 true
      nsPerSec rfl rfl (by decide) (by decide) rfl (by decide)).2.2
      (47 * nsPerSec) (by decide)⟩

/-- **C8**: on the success path of `update`, the stored timestamp is
`time.Unix(serverTime / 1000, 0)` — the server-reported milliseconds divided
by 1000 with Go's truncating integer division, interpreted as Unix seconds —
whenever that quotient is strictly positive, and the local wall-clock instant
`now` otherwise. -/
theorem update_obtainedAt {ε} (env : Env ε) (now : Int) (m : Manager)
    (tr : TokenResponse) (idx : tokenIndices) (access refresh : List Char)
    (hstale : isValid now m = false)
    (hfetch : env.getTokens = .ok tr)
    (hidx : indicesFromSalts env.parser
      ⟨tr.salt1, tr.salt2, tr.salt3, tr.salt4, tr.salt5⟩ = .ok idx)
    (hacc : sliceSkipAt tr.accessToken idx.access = some access)
    (href : sliceSkipAt tr.refreshToken idx.refresh = some refresh) :
    (update env now m).res = .ok () { m with
        accessToken := access
        refreshToken := refresh
        salts := ⟨tr.salt1, tr.salt2, tr.salt3, tr.salt4, tr.salt5⟩
        tokenTS := some (if 0 < tr.serverTime.tdiv 1000
                         then tr.serverTime.tdiv 1000 * nsPerSec
                         else now) } := by
  have hp : parseResponse env.parser tr =
      .ok access refresh ⟨tr.salt1, tr.salt2, tr.salt3, tr.salt4, tr.salt5⟩
        (tr.serverTime.tdiv 1000) := by
    simp [parseResponse, hidx, hacc, href]
  rw [update, if_neg (by simp [hstale])]
  rw [hfetch]
  simp [hp]

/-- A fixed response whose server time is 500 ms: the truncated quotient is 0,
so the update must fall back to the local clock. -/
def trMs500 : TokenResponse := ⟨1, 2, 3, 4, 5, "TOKEN".data, "REF".data, 500⟩

def envMs500 : Env Unit := ⟨.ok trMs500, stubParser⟩

/-- The index sets produced by `stubParser`. -/
def idxE : tokenIndices :=
  ⟨[1000, 1000, 1000, 1000, 1000], [1000, 1000, 1000, 1000, 1000]⟩

/-- Closed instance of C8: with server time 500 ms (quotient 0) the stored
timestamp is the local instant `now = 77`. -/
theorem update_obtainedAt_witness :
    (update envMs500 77 newManager).res = .ok () { newManager with
        accessToken := "TOKEN".data
        refreshToken := "REF".data
        salts := ⟨1, 2, 3, 4, 5⟩
        tokenTS := some 77 } :=
  update_obtainedAt envMs500 77 newManager trMs500 idxE "TOKEN".data "REF".data
    rfl rfl rfl rfl rfl

/-- **C6 (amended)**: `AccessToken` never returns an empty token as a valid
value; and when the update performed by a `RefreshToken` call stores an empty
reconstructed refresh token, that very call returns the empty-refresh-token
error instead of the empty string.  (A *later* call inside the freshness
window can still return the cached empty refresh token, because `isValid`
checks only the access token — see the counterexample.) -/
theorem emptyToken_guard :
    (∀ (ε : Type) (env : Env ε) (now : Int) (m m2 : Manager) (t : List Char)
        (n : Nat) (s : Bool),
      accessTokenFn env now m = (.ok t m2, n, s) → t ≠ []) ∧
    (∀ (ε : Type) (env : Env ε) (now : Int) (m m2 : Manager) (a : Unit)
        (n : Nat) (s : Bool),
      isValid now m = false → update env now m = ⟨.ok a m2, n, s⟩ →
      m2.refreshToken = [] →
      refreshTokenFn env now m = (.err .emptyRefreshToken m2, n, s)) := by
  constructor
  · intro ε env now m m2 t n s h
    rw [(accessTokenFn_ok_shape h).1]
    exact (accessTokenFn_ok_shape h).2.1
  · intro ε env now m m2 a n s hstale hu hempty
    rw [refreshTokenFn, if_neg (by simp [hstale]), hu]
    simp [hempty]

/-- Closed instance of C6: against a response whose raw refresh token is
empty, the `RefreshToken` call that performs the update errors. -/
def trEmptyRef : TokenResponse := ⟨1, 2, 3, 4, 5, "TOKEN".data, [], 1000⟩

def envEmptyRef : Env Unit := ⟨.ok trEmptyRef, stubParser⟩

/-- The state stored by the update against `envEmptyRef`: non-empty access
token, empty refresh token, fresh timestamp. -/
def mER : Manager :=
  { accessToken := "TOKEN".data
    refreshToken := []
    tokenTS := some nsPerSec
    salts := ⟨1, 2, 3, 4, 5⟩
    maxUpdatePeriod := 45 * nsPerSec }

theorem emptyToken_guard_witness :
    refreshTokenFn envEmptyRef 0 newManager = (.err .emptyRefreshToken mER, 1, true) :=
  emptyToken_guard.2 Unit envEmptyRef 0 newManager mER () 1 true rfl (by decide) rfl

/-- **C6 counterexample**: one second after the failed `RefreshToken` call the
cache is fresh (its access token is non-empty), so `RefreshToken` silently
returns the cached *empty* refresh token as a valid value — refuting "an
empty token is never silently returned to callers as valid". -/
theorem emptyToken_guard_cex :
    runOp (Op.refresh envEmptyRef 0) newManager = some (mER, true) ∧
    refreshTokenFn envEmptyRef (nsPerSec + 1) mER = (.ok [] mER, 0, false) :=
  ⟨by decide, by decide⟩

/-- **C7 (amended)**: the credential state is created empty at construction;
as long as no update cycle has completed successfully and stored fetched
credentials, the state (in particular the access token) is unchanged/empty;
and every storing update replaces the four credential fields together,
preserving the validity window (wholesale replacement, no partial mutation).
The converse direction of the spec's "empty iff no successful update" fails:
see the counterexample, where a successful update stores an empty access
token. -/
theorem credentialState_invariant :
    newManager.accessToken = [] ∧
    (∀ (ε : Type) (ops : List (Op ε)) (m m2 : Manager),
      runTrace ops m false = some (m2, false) → m2 = m) ∧
    (∀ (ε : Type) (ops : List (Op ε)) (m2 : Manager),
      runTrace ops newManager false = some (m2, false) → m2.accessToken = []) ∧
    (∀ (ε : Type) (env : Env ε) (now : Int) (m : Manager),
      (update env now m).stored = true →
      ∃ access refresh salts ts,
        update env now m = ⟨.ok ()
          { accessToken := access
            refreshToken := refresh
            tokenTS := some ts
            salts := salts
            maxUpdatePeriod := m.maxUpdatePeriod }, 1, true⟩) := by
  refine ⟨rfl, ?_, ?_, ?_⟩
  · intro ε ops m m2 h
    exact runTrace_no_store ops m m2 h
  · intro ε ops m2 h
    rw [runTrace_no_store ops newManager m2 h]
    rfl
  · intro ε env now m h
    exact update_stored_shape env now m h

theorem credentialState_invariant_witness :
    runTrace ([] : List (Op Unit)) newManager false = some (newManager, false) ∧
    newManager.accessToken = [] :=
  ⟨rfl, credentialState_invariant.2.2.1 Unit [] newManager rfl⟩

/-- A response whose raw access token is empty. -/
def trEmptyAccess : TokenResponse := ⟨1, 2, 3, 4, 5, [], "REF".data, 1000⟩

def envEmptyAccess : Env Unit := ⟨.ok trEmptyAccess, stubParser⟩

/-- The state stored by the update against `envEmptyAccess`. -/
def mEA : Manager :=
  { accessToken := []
    refreshToken := "REF".data
    tokenTS := some nsPerSec
    salts := ⟨1, 2, 3, 4, 5⟩
    maxUpdatePeriod := 45 * nsPerSec }

/-- **C7 counterexample**: a `ForceUpdate` against a response with an empty
raw access token completes successfully (it stores credentials — the trace
flag is `true`) yet leaves the cached access token empty: "the access token
is empty iff no successful update has ever completed" fails in the
only-if direction. -/
theorem credentialState_invariant_cex :
    runTrace [Op.force envEmptyAccess 0] newManager false = some (mEA, true) ∧
    mEA.accessToken = [] :=
  ⟨by decide, rfl⟩
